import Mathlib

/-!
Verification of the supply-chain simulation kernel (maro).

The development shallowly embeds the per-tick entity logic of the
supply-chain scenario: the storage inventory ledger with its four
allocation strategies, the vehicle load/transit/unload state machine,
the seller demand-fulfilment step, and the consumer order logic from
`maro/simulator/scenarios/supply_chain/units/consumer.py`.

Quantities are modelled as `Int` (the simulator uses Python integers;
non-negativity is an invariant to be proved, not a representation
choice).  SKU and facility identifiers are `Nat`.  Python dictionaries
keyed by SKU or facility id are modelled as association lists
(`List (Nat × Int)`); monetary values (Python floats obtained by
multiplying integer quantities with configured unit prices) are
modelled as `Int` with the unit prices abstracted as functions.
-/

/-- Association list mapping an id (SKU id or facility id) to an integer
quantity; the embedding of the simulator's `Dict[int, int]` /
`Counter` ledgers. -/
abbrev Levels := List (Nat × Int)

/-- Quantity recorded for a key, defaulting to 0 for an absent key
(the behaviour of `defaultdict(int)` / `Counter` reads). -/
def getLevel : Levels → Nat → Int
  | [], _ => 0
  | (k, v) :: rest, sku => if k = sku then v else getLevel rest sku

/-- Add `d` to the quantity of key `sku` (in place for the first matching
entry, appending a fresh entry for an absent key), the embedding of
`dict[sku] += d` on a zero-defaulting dictionary. -/
def addLevel : Levels → Nat → Int → Levels
  | [], sku, d => [(sku, d)]
  | (k, v) :: rest, sku, d =>
      if k = sku then (k, v + d) :: rest else (k, v) :: addLevel rest sku d

/-- Sum of all recorded quantities, `sum(dict.values())`. -/
def totalLevel (l : Levels) : Int := (l.map Prod.snd).sum

/-- All recorded quantities are non-negative. -/
def NonnegLevels (l : Levels) : Prop := ∀ p ∈ l, 0 ≤ p.2

instance (l : Levels) : Decidable (NonnegLevels l) := List.decidableBAll _ l

theorem totalLevel_nil : totalLevel [] = 0 := rfl

theorem totalLevel_cons (p : Nat × Int) (l : Levels) :
    totalLevel (p :: l) = p.2 + totalLevel l := by
  simp [totalLevel]

theorem totalLevel_addLevel (l : Levels) (sku : Nat) (d : Int) :
    totalLevel (addLevel l sku d) = totalLevel l + d := by
  induction l with
  | nil => simp [addLevel, totalLevel]
  | cons p rest ih =>
      obtain ⟨k, v⟩ := p
      by_cases h : k = sku <;>
        simp [addLevel, h, totalLevel_cons, ih] <;> ring

theorem getLevel_addLevel_self (l : Levels) (sku : Nat) (d : Int) :
    getLevel (addLevel l sku d) sku = getLevel l sku + d := by
  induction l with
  | nil => simp [addLevel, getLevel]
  | cons p rest ih =>
      obtain ⟨k, v⟩ := p
      by_cases h : k = sku <;> simp [addLevel, h, getLevel, ih]

theorem getLevel_addLevel_ne (l : Levels) (sku sku' : Nat) (d : Int)
    (h : sku' ≠ sku) : getLevel (addLevel l sku d) sku' = getLevel l sku' := by
  have h2 : sku ≠ sku' := Ne.symm h
  induction l with
  | nil => simp [addLevel, getLevel, h2]
  | cons p rest ih =>
      obtain ⟨k, v⟩ := p
      by_cases hk : k = sku
      · subst hk
        simp [addLevel, getLevel, h2]
      · simp [addLevel, hk, getLevel, ih]

theorem getLevel_nonneg (l : Levels) : NonnegLevels l → ∀ sku : Nat,
    0 ≤ getLevel l sku := by
  induction l with
  | nil =>
      intro _ sku
      simp [getLevel]
  | cons p rest ih =>
      intro h sku
      obtain ⟨k, v⟩ := p
      by_cases hk : k = sku
      · simpa [getLevel, hk] using h (k, v) (by simp)
      · have hrest : NonnegLevels rest := fun q hq => h q (List.mem_cons_of_mem _ hq)
        simpa [getLevel, hk] using ih hrest sku

theorem nonnegLevels_addLevel (sku : Nat) (d : Int) :
    ∀ l : Levels, NonnegLevels l → 0 ≤ getLevel l sku + d →
      NonnegLevels (addLevel l sku d) := by
  intro l
  induction l with
  | nil =>
      intro _ hd p hp
      simp [addLevel] at hp
      subst hp
      simpa [getLevel] using hd
  | cons q rest ih =>
      obtain ⟨k, v⟩ := q
      intro h hd p hp
      by_cases hk : k = sku
      · subst hk
        simp [addLevel] at hp
        rcases hp with hp | hp
        · subst hp
          simpa [getLevel] using hd
        · exact h p (List.mem_cons_of_mem _ hp)
      · simp [addLevel, hk] at hp
        rcases hp with hp | hp
        · subst hp
          exact h (k, v) (by simp)
        · have hrest : NonnegLevels rest := fun q hq => h q (List.mem_cons_of_mem _ hq)
          have hd' : 0 ≤ getLevel rest sku + d := by simpa [getLevel, hk] using hd
          exact ih hrest hd' p hp

/-- Modelled from the spec: the `StorageUnit` implementation
(`units/storage.py`) is absent from the sources; this is the
per-facility inventory ledger of spec §4.1 / §3: a SKU-agnostic total
`capacity` and a per-SKU quantity-on-hand mapping (`product_level`). -/
structure StorageUnit where
  capacity : Int
  product_level : Levels
deriving DecidableEq

/-- Free space left: `capacity - sum(product_level.values())`. -/
def StorageUnit.remaining_space (st : StorageUnit) : Int :=
  st.capacity - totalLevel st.product_level

/-- Modelled from the spec (§4.1): `take_available(sku, requested)`
removes `min(requested, on_hand)` from that SKU and returns the actual
amount removed; it never fails. -/
def StorageUnit.take_available (st : StorageUnit) (sku : Nat) (requested : Int) :
    Int × StorageUnit :=
  let actual := min requested (getLevel st.product_level sku)
  (actual, { st with product_level := addLevel st.product_level sku (-actual) })

/-- Deduct every requested quantity (helper for `try_take_products`). -/
def subAll (l : Levels) (reqs : Levels) : Levels :=
  reqs.foldl (fun acc p => addLevel acc p.1 (-p.2)) l

/-- Add every requested quantity in full (helper for `try_add_products`). -/
def addAll (l : Levels) (reqs : Levels) : Levels :=
  reqs.foldl (fun acc p => addLevel acc p.1 p.2) l

/-- Modelled from the spec (§4.1): `try_take_products(map sku→qty)` is
atomic and all-or-nothing — it fails (returns false, no mutation) if any
requested SKU quantity exceeds its on-hand quantity, and otherwise
deducts all requested quantities and returns true. -/
def StorageUnit.try_take_products (st : StorageUnit) (reqs : Levels) :
    Bool × StorageUnit :=
  if ∀ p ∈ reqs, p.2 ≤ getLevel st.product_level p.1 then
    (true, { st with product_level := subAll st.product_level reqs })
  else
    (false, st)

/-- The four allocation strategies of `try_add_products`
(names follow the simulator's `AddStrategy` enum). -/
inductive AddStrategy
  | ignoreUpperBoundAllOrNothing
  | ignoreUpperBoundAddInOrder
  | ignoreUpperBoundProportional
  | limitedByUpperBound
deriving DecidableEq

/-- Add every request in full. -/
def StorageUnit.addFull (st : StorageUnit) (reqs : Levels) : StorageUnit :=
  { st with product_level := addAll st.product_level reqs }

/-- Modelled from the spec (§4.1 strategy 1): all-or-nothing — if the sum
of requested quantities exceeds the current remaining space, add nothing
and return the empty map; otherwise add every requested quantity in full. -/
def StorageUnit.tryAddAllOrNothing (st : StorageUnit) (reqs : Levels) :
    Levels × StorageUnit :=
  if st.remaining_space < totalLevel reqs then ([], st)
  else (reqs, st.addFull reqs)

/-- Fold a per-SKU allocation rule `f` over the requests in caller
order, accumulating the per-SKU added amounts and updating the storage
as it goes (the common shape of strategies 2 and 4). -/
def addFold (f : StorageUnit → Nat × Int → Int) (st : StorageUnit) (reqs : Levels) :
    Levels × StorageUnit :=
  reqs.foldl
    (fun acc p =>
      (acc.1 ++ [(p.1, f acc.2 p)],
        { acc.2 with product_level := addLevel acc.2.product_level p.1 (f acc.2 p) }))
    ([], st)

/-- Modelled from the spec (§4.1 strategy 2): process the requested SKUs
in the caller-provided order, adding `min(requested, remaining_space)`
for each and decrementing the remaining space as it goes. -/
def StorageUnit.tryAddInOrder (st : StorageUnit) (reqs : Levels) :
    Levels × StorageUnit :=
  addFold (fun acc p => min p.2 acc.remaining_space) st reqs

/-- Modelled from the spec (§4.1 strategy 3): if the total requested fits
in the remaining space add all in full; otherwise each SKU gets
`floor(requested * remaining_space / total_requested)` (Python `//`,
which agrees with `Int` division here since all operands are
non-negative). -/
def StorageUnit.tryAddProportional (st : StorageUnit) (reqs : Levels) :
    Levels × StorageUnit :=
  if totalLevel reqs ≤ st.remaining_space then (reqs, st.addFull reqs)
  else
    let alloc := reqs.map
      (fun p => (p.1, p.2 * st.remaining_space / totalLevel reqs))
    (alloc, st.addFull alloc)

/-- Modelled from the spec (§4.1 strategy 4): each SKU has the default
upper bound `capacity / number_of_distinct_SKUs_in_storage` (floor
division); each SKU receives `min(requested, upper_bound - current_level)`,
additionally capped so the running total never exceeds the remaining
space. -/
def StorageUnit.tryAddLimitedByUpperBound (st : StorageUnit) (reqs : Levels) :
    Levels × StorageUnit :=
  addFold
    (fun acc p =>
      min (min p.2 (st.capacity / (st.product_level.length : Int) -
          getLevel acc.product_level p.1))
        acc.remaining_space)
    st reqs

/-- Modelled from the spec (§4.1): `try_add_products(map, strategy)`
dispatches on the allocation strategy and returns the per-SKU amounts
actually added together with the updated storage. -/
def StorageUnit.try_add_products (st : StorageUnit) (reqs : Levels)
    (strategy : AddStrategy) : Levels × StorageUnit :=
  match strategy with
  | .ignoreUpperBoundAllOrNothing => st.tryAddAllOrNothing reqs
  | .ignoreUpperBoundAddInOrder => st.tryAddInOrder reqs
  | .ignoreUpperBoundProportional => st.tryAddProportional reqs
  | .limitedByUpperBound => st.tryAddLimitedByUpperBound reqs

/-- One caller-visible mutating operation on a storage unit. -/
inductive StorageOp
  | takeAvailable (sku : Nat) (requested : Int)
  | tryTake (reqs : Levels)
  | tryAdd (strategy : AddStrategy) (reqs : Levels)

/-- State reached after one operation (results discarded). -/
def StorageUnit.applyOp (st : StorageUnit) : StorageOp → StorageUnit
  | .takeAvailable sku req => (st.take_available sku req).2
  | .tryTake reqs => (st.try_take_products reqs).2
  | .tryAdd strategy reqs => (st.try_add_products reqs strategy).2

/-- State reached after a sequence of operations. -/
def StorageUnit.applyOps (st : StorageUnit) (ops : List StorageOp) : StorageUnit :=
  ops.foldl StorageUnit.applyOp st

/-- The storage invariant of spec §3: quantities are non-negative
integers whose sum never exceeds the (non-negative) capacity. -/
def StorageUnit.Inv (st : StorageUnit) : Prop :=
  0 ≤ st.capacity ∧ NonnegLevels st.product_level ∧
    totalLevel st.product_level ≤ st.capacity

instance (st : StorageUnit) : Decidable st.Inv :=
  inferInstanceAs (Decidable (_ ∧ _ ∧ _))

/-- Well-formed operation arguments: requested quantities are
non-negative integers, and a request map binds each SKU once
(Python passes `dict`s, whose keys are distinct). -/
def StorageOp.WF : StorageOp → Prop
  | .takeAvailable _ req => 0 ≤ req
  | .tryTake reqs => NonnegLevels reqs ∧ (reqs.map Prod.fst).Nodup
  | .tryAdd _ reqs => NonnegLevels reqs

instance : DecidablePred StorageOp.WF := fun op =>
  match op with
  | .takeAvailable _ req => inferInstanceAs (Decidable (0 ≤ req))
  | .tryTake _ => inferInstanceAs (Decidable (_ ∧ _))
  | .tryAdd _ reqs => inferInstanceAs (Decidable (NonnegLevels reqs))

theorem totalLevel_foldAdd (g : Nat × Int → Int) (reqs : Levels) :
    ∀ l : Levels,
      totalLevel (reqs.foldl (fun acc p => addLevel acc p.1 (g p)) l) =
        totalLevel l + (reqs.map g).sum := by
  induction reqs with
  | nil => simp
  | cons p rest ih =>
      intro l
      simp only [List.foldl_cons, List.map_cons, List.sum_cons, ih,
        totalLevel_addLevel]
      ring

theorem totalLevel_addAll (l reqs : Levels) :
    totalLevel (addAll l reqs) = totalLevel l + totalLevel reqs :=
  totalLevel_foldAdd Prod.snd reqs l

theorem sum_map_neg_snd (reqs : Levels) :
    (reqs.map (fun p => -p.2)).sum = -(reqs.map Prod.snd).sum := by
  induction reqs with
  | nil => simp
  | cons p rest ih =>
      simp only [List.map_cons, List.sum_cons, ih]
      ring

theorem totalLevel_subAll (l reqs : Levels) :
    totalLevel (subAll l reqs) = totalLevel l - totalLevel reqs := by
  have h := totalLevel_foldAdd (fun p => -p.2) reqs l
  simp only [subAll, totalLevel] at h ⊢
  rw [h, sum_map_neg_snd]
  ring

theorem nonnegLevels_addAll (reqs : Levels) :
    ∀ l : Levels, NonnegLevels l → NonnegLevels reqs →
      NonnegLevels (addAll l reqs) := by
  induction reqs with
  | nil =>
      intro l hl _
      simpa [addAll] using hl
  | cons p rest ih =>
      intro l hl hr
      have hp : 0 ≤ p.2 := hr p (by simp)
      have step : NonnegLevels (addLevel l p.1 p.2) :=
        nonnegLevels_addLevel p.1 p.2 l hl
          (by have := getLevel_nonneg l hl p.1; omega)
      have hrest : NonnegLevels rest := fun q hq => hr q (List.mem_cons_of_mem _ hq)
      simpa [addAll] using ih (addLevel l p.1 p.2) step hrest

theorem getLevel_foldAdd_not_mem (g : Nat × Int → Int) (sku : Nat) (reqs : Levels)
    (h : sku ∉ reqs.map Prod.fst) :
    ∀ l : Levels,
      getLevel (reqs.foldl (fun acc p => addLevel acc p.1 (g p)) l) sku =
        getLevel l sku := by
  induction reqs with
  | nil => intro l; rfl
  | cons p rest ih =>
      intro l
      have hne : sku ≠ p.1 := by
        intro hc
        exact h (by simp [hc])
      have hrest : sku ∉ rest.map Prod.fst := by
        intro hc
        exact h (by simp [hc])
      simp only [List.foldl_cons]
      rw [ih hrest, getLevel_addLevel_ne _ _ _ _ hne]

theorem getLevel_foldAdd_mem (g : Nat × Int → Int) (reqs : Levels) :
    (reqs.map Prod.fst).Nodup →
    ∀ l : Levels, ∀ p ∈ reqs,
      getLevel (reqs.foldl (fun acc p => addLevel acc p.1 (g p)) l) p.1 =
        getLevel l p.1 + g p := by
  induction reqs with
  | nil => intro _ l p hp; cases hp
  | cons q rest ih =>
      intro hnd l p hp
      rw [List.map_cons, List.nodup_cons] at hnd
      obtain ⟨hq, hndr⟩ := hnd
      rcases List.mem_cons.mp hp with hp | hp
      · subst hp
        simp only [List.foldl_cons]
        rw [getLevel_foldAdd_not_mem g p.1 rest hq, getLevel_addLevel_self]
      · have hne : p.1 ≠ q.1 := by
          intro hc
          exact hq (hc ▸ List.mem_map_of_mem Prod.fst hp)
        simp only [List.foldl_cons]
        rw [ih hndr (addLevel l q.1 (g q)) p hp,
          getLevel_addLevel_ne _ _ _ _ hne]

theorem nonnegLevels_subAll (reqs : Levels) :
    ∀ l : Levels, NonnegLevels l → (reqs.map Prod.fst).Nodup →
      (∀ p ∈ reqs, p.2 ≤ getLevel l p.1) →
      NonnegLevels (subAll l reqs) := by
  induction reqs with
  | nil =>
      intro l hl _ _
      simpa [subAll] using hl
  | cons q rest ih =>
      intro l hl hnd hbd
      rw [List.map_cons, List.nodup_cons] at hnd
      obtain ⟨hq, hndr⟩ := hnd
      have hstep : NonnegLevels (addLevel l q.1 (-q.2)) :=
        nonnegLevels_addLevel q.1 (-q.2) l hl
          (by have := hbd q (by simp); omega)
      have hbdr : ∀ p ∈ rest, p.2 ≤ getLevel (addLevel l q.1 (-q.2)) p.1 := by
        intro p hp
        have hne : p.1 ≠ q.1 := by
          intro hc
          exact hq (hc ▸ List.mem_map_of_mem Prod.fst hp)
        rw [getLevel_addLevel_ne _ _ _ _ hne]
        exact hbd p (List.mem_cons_of_mem _ hp)
      simpa [subAll] using ih (addLevel l q.1 (-q.2)) hstep hndr hbdr

theorem int_add_ediv_le (a b T : Int) (hT : 0 < T) :
    a / T + b / T ≤ (a + b) / T := by
  rw [Int.le_ediv_iff_mul_le hT]
  have ha := Int.emod_nonneg a (by omega : T ≠ 0)
  have hb := Int.emod_nonneg b (by omega : T ≠ 0)
  have ha2 := Int.ediv_add_emod a T
  have hb2 := Int.ediv_add_emod b T
  nlinarith

theorem sum_ediv_le (T : Int) (hT : 0 < T) :
    ∀ xs : List Int, (xs.map (fun x => x / T)).sum ≤ xs.sum / T := by
  intro xs
  induction xs with
  | nil => simp
  | cons x rest ih =>
      simp only [List.map_cons, List.sum_cons]
      calc x / T + (rest.map (fun x => x / T)).sum
          ≤ x / T + rest.sum / T := by omega
        _ ≤ (x + rest.sum) / T := int_add_ediv_le _ _ _ hT

/-- The proportionally allocated amounts fit in the remaining space:
the sum of `q * R / T` over the requests is at most `R` when `T` is the
total requested, all requests are non-negative, and `0 ≤ R`. -/
theorem sum_prop_alloc_le (reqs : Levels) (R : Int)
    (hT : 0 < totalLevel reqs) :
    (reqs.map (fun p => p.2 * R / totalLevel reqs)).sum ≤ R := by
  have h1 : (reqs.map (fun p => p.2 * R / totalLevel reqs)).sum =
      ((reqs.map (fun p => p.2 * R)).map (fun x => x / totalLevel reqs)).sum := by
    rw [List.map_map]
    rfl
  have h2 := sum_ediv_le (totalLevel reqs) hT (reqs.map (fun p => p.2 * R))
  have h3 : (reqs.map (fun p => p.2 * R)).sum = totalLevel reqs * R := by
    have := List.sum_map_mul_right reqs (fun p : Nat × Int => p.2) R
    simpa [totalLevel] using this
  have h4 : totalLevel reqs * R / totalLevel reqs = R :=
    Int.mul_ediv_cancel_left R (by omega)
  rw [h1]
  calc ((reqs.map (fun p => p.2 * R)).map (fun x => x / totalLevel reqs)).sum
      ≤ (reqs.map (fun p => p.2 * R)).sum / totalLevel reqs := h2
    _ = R := by rw [h3, h4]

theorem inv_take_available (st : StorageUnit) (h : st.Inv) (sku : Nat)
    (req : Int) (hreq : 0 ≤ req) : ((st.take_available sku req).2).Inv := by
  obtain ⟨hcap, hnn, htot⟩ := h
  have hlvl : 0 ≤ getLevel st.product_level sku := getLevel_nonneg _ hnn sku
  have hmin1 : 0 ≤ min req (getLevel st.product_level sku) := le_min hreq hlvl
  have hmin2 : min req (getLevel st.product_level sku) ≤
      getLevel st.product_level sku := min_le_right _ _
  refine ⟨hcap, ?_, ?_⟩
  · exact nonnegLevels_addLevel sku _ _ hnn (by omega)
  · simp only [StorageUnit.take_available, totalLevel_addLevel]
    omega

theorem inv_try_take_products (st : StorageUnit) (h : st.Inv) (reqs : Levels)
    (hreqs : NonnegLevels reqs) (hnd : (reqs.map Prod.fst).Nodup) :
    ((st.try_take_products reqs).2).Inv := by
  obtain ⟨hcap, hnn, htot⟩ := h
  by_cases hc : ∀ p ∈ reqs, p.2 ≤ getLevel st.product_level p.1
  · have hsum : 0 ≤ totalLevel reqs := by
      have hmem : ∀ x ∈ reqs.map Prod.snd, 0 ≤ x := by
        intro x hx
        obtain ⟨p, hp, rfl⟩ := List.mem_map.mp hx
        exact hreqs p hp
      exact List.sum_nonneg hmem
    simp only [StorageUnit.try_take_products, if_pos hc]
    refine ⟨hcap, nonnegLevels_subAll reqs _ hnn hnd hc, ?_⟩
    show totalLevel (subAll st.product_level reqs) ≤ st.capacity
    rw [totalLevel_subAll]
    omega
  · simp only [StorageUnit.try_take_products, if_neg hc]
    exact ⟨hcap, hnn, htot⟩

theorem inv_addFull (st : StorageUnit) (h : st.Inv) (reqs : Levels)
    (hreqs : NonnegLevels reqs) (hfit : totalLevel reqs ≤ st.remaining_space) :
    (st.addFull reqs).Inv := by
  obtain ⟨hcap, hnn, htot⟩ := h
  refine ⟨hcap, nonnegLevels_addAll reqs _ hnn hreqs, ?_⟩
  rw [StorageUnit.addFull]
  simp only
  rw [totalLevel_addAll]
  simp only [StorageUnit.remaining_space] at hfit
  omega

theorem inv_tryAddAllOrNothing (st : StorageUnit) (h : st.Inv) (reqs : Levels)
    (hreqs : NonnegLevels reqs) : ((st.tryAddAllOrNothing reqs).2).Inv := by
  by_cases hc : st.remaining_space < totalLevel reqs
  · simpa only [StorageUnit.tryAddAllOrNothing, hc, if_pos] using h
  · simp only [StorageUnit.tryAddAllOrNothing, hc, if_neg, not_false_iff]
    exact inv_addFull st h reqs hreqs (by omega)

theorem inv_tryAddProportional (st : StorageUnit) (h : st.Inv) (reqs : Levels)
    (hreqs : NonnegLevels reqs) : ((st.tryAddProportional reqs).2).Inv := by
  by_cases hc : totalLevel reqs ≤ st.remaining_space
  · simp only [StorageUnit.tryAddProportional, hc, if_pos]
    exact inv_addFull st h reqs hreqs hc
  · have hspace : 0 ≤ st.remaining_space := by
      obtain ⟨hcap, hnn, htot⟩ := h
      simp only [StorageUnit.remaining_space]
      omega
    have hT : 0 < totalLevel reqs := by omega
    simp only [StorageUnit.tryAddProportional, hc, if_neg, not_false_iff]
    set alloc := reqs.map
      (fun p => (p.1, p.2 * st.remaining_space / totalLevel reqs)) with halloc
    have hallocnn : NonnegLevels alloc := by
      intro p hp
      obtain ⟨q, hq, rfl⟩ := List.mem_map.mp hp
      exact Int.ediv_nonneg (mul_nonneg (hreqs q hq) hspace) (by omega)
    have hallocsum : totalLevel alloc ≤ st.remaining_space := by
      have : totalLevel alloc =
          (reqs.map (fun p => p.2 * st.remaining_space / totalLevel reqs)).sum := by
        simp only [totalLevel, halloc, List.map_map]
        rfl
      rw [this]
      exact sum_prop_alloc_le reqs st.remaining_space hT
    exact inv_addFull st h alloc hallocnn hallocsum

/-- Invariant preservation for the running-fold shape shared by
strategies 2 and 4: it suffices that the allocation rule never adds more
than the current remaining space and never drives a level negative. -/
theorem inv_addFold (f : StorageUnit → Nat × Int → Int) (P : Nat × Int → Prop)
    (hf : ∀ st p, st.Inv → P p →
      f st p ≤ st.remaining_space ∧ 0 ≤ getLevel st.product_level p.1 + f st p) :
    ∀ reqs : Levels, (∀ p ∈ reqs, P p) → ∀ acc : Levels × StorageUnit,
      acc.2.Inv →
      ((reqs.foldl
        (fun acc p =>
          (acc.1 ++ [(p.1, f acc.2 p)],
            { acc.2 with
              product_level := addLevel acc.2.product_level p.1 (f acc.2 p) }))
        acc).2).Inv := by
  intro reqs
  induction reqs with
  | nil => intro _ acc hacc; exact hacc
  | cons p rest ih =>
      intro hP acc hacc
      obtain ⟨hle, hnng⟩ := hf acc.2 p hacc (hP p (by simp))
      obtain ⟨hcap, hnn, htot⟩ := hacc
      have hstep : ({ acc.2 with
          product_level := addLevel acc.2.product_level p.1 (f acc.2 p) } :
            StorageUnit).Inv := by
        refine ⟨hcap, nonnegLevels_addLevel _ _ _ hnn hnng, ?_⟩
        simp only [totalLevel_addLevel]
        simp only [StorageUnit.remaining_space] at hle
        omega
      simpa only [List.foldl_cons] using
        ih (fun q hq => hP q (List.mem_cons_of_mem _ hq)) _ hstep

theorem inv_tryAddInOrder (st : StorageUnit) (h : st.Inv) (reqs : Levels)
    (hreqs : NonnegLevels reqs) : ((st.tryAddInOrder reqs).2).Inv := by
  refine inv_addFold (fun acc p => min p.2 acc.remaining_space)
    (fun p => 0 ≤ p.2) ?_ reqs hreqs ([], st) h
  intro s p hs hp
  obtain ⟨hcap, hnn, htot⟩ := hs
  have hspace : 0 ≤ s.remaining_space := by
    simp only [StorageUnit.remaining_space]
    omega
  have hlvl : 0 ≤ getLevel s.product_level p.1 := getLevel_nonneg _ hnn p.1
  refine ⟨min_le_right _ _, ?_⟩
  show 0 ≤ getLevel s.product_level p.1 + min p.2 s.remaining_space
  omega

theorem inv_tryAddLimitedByUpperBound (st : StorageUnit) (h : st.Inv)
    (reqs : Levels) (hreqs : NonnegLevels reqs) :
    ((st.tryAddLimitedByUpperBound reqs).2).Inv := by
  have hub : 0 ≤ st.capacity / (st.product_level.length : Int) :=
    Int.ediv_nonneg h.1 (by positivity)
  refine inv_addFold
    (fun acc p =>
      min (min p.2 (st.capacity / (st.product_level.length : Int) -
          getLevel acc.product_level p.1))
        acc.remaining_space)
    (fun p => 0 ≤ p.2) ?_ reqs hreqs ([], st) h
  intro s p hs hp
  obtain ⟨hcap, hnn, htot⟩ := hs
  have hspace : 0 ≤ s.remaining_space := by
    simp only [StorageUnit.remaining_space]
    omega
  have hlvl : 0 ≤ getLevel s.product_level p.1 := getLevel_nonneg _ hnn p.1
  refine ⟨min_le_right _ _, ?_⟩
  show 0 ≤ getLevel s.product_level p.1 +
    min (min p.2 (st.capacity / (st.product_level.length : Int) -
      getLevel s.product_level p.1)) s.remaining_space
  omega

theorem inv_applyOp (st : StorageUnit) (h : st.Inv) (op : StorageOp)
    (hop : op.WF) : (st.applyOp op).Inv := by
  cases op with
  | takeAvailable sku req => exact inv_take_available st h sku req hop
  | tryTake reqs => exact inv_try_take_products st h reqs hop.1 hop.2
  | tryAdd strategy reqs =>
      cases strategy with
      | ignoreUpperBoundAllOrNothing => exact inv_tryAddAllOrNothing st h reqs hop
      | ignoreUpperBoundAddInOrder => exact inv_tryAddInOrder st h reqs hop
      | ignoreUpperBoundProportional => exact inv_tryAddProportional st h reqs hop
      | limitedByUpperBound => exact inv_tryAddLimitedByUpperBound st h reqs hop

theorem inv_applyOps (ops : List StorageOp) :
    ∀ st : StorageUnit, st.Inv → (∀ op ∈ ops, op.WF) →
      (st.applyOps ops).Inv := by
  induction ops with
  | nil => intro st h _; exact h
  | cons op rest ih =>
      intro st h hops
      have h1 := inv_applyOp st h op (hops op (by simp))
      exact ih (st.applyOp op) h1 (fun o ho => hops o (List.mem_cons_of_mem _ ho))

/-- C1: for every storage unit satisfying the capacity invariant, at every
point reached by a sequence of operations — `take_available`,
`try_take_products`, and `try_add_products` under any of the four
allocation strategies, with well-formed request maps — the sum of all
per-SKU product levels is at most the storage capacity and every product
level is a non-negative integer. -/
theorem storage_capacity_invariant (st : StorageUnit) (ops : List StorageOp)
    (hst : st.Inv) (hops : ∀ op ∈ ops, op.WF) :
    totalLevel (st.applyOps ops).product_level ≤ (st.applyOps ops).capacity ∧
      NonnegLevels (st.applyOps ops).product_level := by
  have h := inv_applyOps ops st hst hops
  exact ⟨h.2.2, h.2.1⟩

theorem storage_capacity_invariant_witness :
    (StorageUnit.mk 100 [(1, 80), (2, 10)]).Inv ∧
      (∀ op ∈ [StorageOp.takeAvailable 1 30, StorageOp.tryTake [(1, 20)],
          StorageOp.tryAdd AddStrategy.ignoreUpperBoundAllOrNothing [(1, 40), (2, 10)],
          StorageOp.tryAdd AddStrategy.ignoreUpperBoundAddInOrder [(2, 100)],
          StorageOp.tryAdd AddStrategy.ignoreUpperBoundProportional [(1, 30), (2, 30)],
          StorageOp.tryAdd AddStrategy.limitedByUpperBound [(1, 10)]], op.WF) ∧
      (totalLevel ((StorageUnit.mk 100 [(1, 80), (2, 10)]).applyOps
          [StorageOp.takeAvailable 1 30, StorageOp.tryTake [(1, 20)],
            StorageOp.tryAdd AddStrategy.ignoreUpperBoundAllOrNothing [(1, 40), (2, 10)],
            StorageOp.tryAdd AddStrategy.ignoreUpperBoundAddInOrder [(2, 100)],
            StorageOp.tryAdd AddStrategy.ignoreUpperBoundProportional [(1, 30), (2, 30)],
            StorageOp.tryAdd AddStrategy.limitedByUpperBound [(1, 10)]]).product_level ≤
        ((StorageUnit.mk 100 [(1, 80), (2, 10)]).applyOps
          [StorageOp.takeAvailable 1 30, StorageOp.tryTake [(1, 20)],
            StorageOp.tryAdd AddStrategy.ignoreUpperBoundAllOrNothing [(1, 40), (2, 10)],
            StorageOp.tryAdd AddStrategy.ignoreUpperBoundAddInOrder [(2, 100)],
            StorageOp.tryAdd AddStrategy.ignoreUpperBoundProportional [(1, 30), (2, 30)],
            StorageOp.tryAdd AddStrategy.limitedByUpperBound [(1, 10)]]).capacity ∧
        NonnegLevels ((StorageUnit.mk 100 [(1, 80), (2, 10)]).applyOps
          [StorageOp.takeAvailable 1 30, StorageOp.tryTake [(1, 20)],
            StorageOp.tryAdd AddStrategy.ignoreUpperBoundAllOrNothing [(1, 40), (2, 10)],
            StorageOp.tryAdd AddStrategy.ignoreUpperBoundAddInOrder [(2, 100)],
            StorageOp.tryAdd AddStrategy.ignoreUpperBoundProportional [(1, 30), (2, 30)],
            StorageOp.tryAdd AddStrategy.limitedByUpperBound [(1, 10)]]).product_level) :=
  ⟨by decide, by decide, storage_capacity_invariant _ _ (by decide) (by decide)⟩

/-- C2: `try_take_products` is atomic and all-or-nothing — if any
requested SKU quantity exceeds that SKU's on-hand quantity it returns
false and leaves the storage (all product levels and hence the remaining
space) unchanged; otherwise it returns true and deducts exactly the
requested quantity from every requested SKU, leaving unrequested SKUs
unchanged. -/
theorem try_take_products_atomic (st : StorageUnit) (reqs : Levels)
    (hnd : (reqs.map Prod.fst).Nodup) :
    ((∃ p ∈ reqs, getLevel st.product_level p.1 < p.2) →
        st.try_take_products reqs = (false, st)) ∧
    ((∀ p ∈ reqs, p.2 ≤ getLevel st.product_level p.1) →
      (st.try_take_products reqs).1 = true ∧
      (∀ p ∈ reqs,
        getLevel (st.try_take_products reqs).2.product_level p.1 =
          getLevel st.product_level p.1 - p.2) ∧
      (∀ sku : Nat, sku ∉ reqs.map Prod.fst →
        getLevel (st.try_take_products reqs).2.product_level sku =
          getLevel st.product_level sku)) := by
  constructor
  · intro hex
    have hc : ¬∀ p ∈ reqs, p.2 ≤ getLevel st.product_level p.1 := by
      intro hall
      obtain ⟨p, hp, hlt⟩ := hex
      exact absurd (hall p hp) (by omega)
    simp only [StorageUnit.try_take_products, if_neg hc]
  · intro hc
    simp only [StorageUnit.try_take_products, if_pos hc]
    refine ⟨by trivial, ?_, ?_⟩
    · intro p hp
      have h := getLevel_foldAdd_mem (fun p => -p.2) reqs hnd st.product_level p hp
      show getLevel (subAll st.product_level reqs) p.1 =
        getLevel st.product_level p.1 - p.2
      rw [subAll, h]
      ring
    · intro sku hsku
      exact getLevel_foldAdd_not_mem (fun p => -p.2) sku reqs hsku st.product_level

theorem try_take_products_atomic_witness :
    ([(3, 81)].map (Prod.fst (α := Nat) (β := Int))).Nodup ∧
      ((∃ p ∈ [((3 : Nat), (81 : Int))],
          getLevel (StorageUnit.mk 100 [(3, 80)]).product_level p.1 < p.2) →
        (StorageUnit.mk 100 [(3, 80)]).try_take_products [(3, 81)] =
          (false, StorageUnit.mk 100 [(3, 80)])) :=
  ⟨by decide, ((try_take_products_atomic (StorageUnit.mk 100 [(3, 80)])
      [(3, 81)] (by decide)).1)⟩

/-- C5: `try_add_products` with the all-or-nothing strategy returns the
empty map and leaves the storage completely unchanged whenever the sum
of the requested quantities exceeds the current remaining space, and
otherwise adds every requested quantity in full (returning the request
map itself). -/
theorem try_add_all_or_nothing_spec (st : StorageUnit) (reqs : Levels)
    (hnd : (reqs.map Prod.fst).Nodup) :
    (st.remaining_space < totalLevel reqs →
      st.try_add_products reqs AddStrategy.ignoreUpperBoundAllOrNothing =
        ([], st)) ∧
    (totalLevel reqs ≤ st.remaining_space →
      (st.try_add_products reqs AddStrategy.ignoreUpperBoundAllOrNothing).1 =
          reqs ∧
      (∀ p ∈ reqs,
        getLevel (st.try_add_products reqs
            AddStrategy.ignoreUpperBoundAllOrNothing).2.product_level p.1 =
          getLevel st.product_level p.1 + p.2) ∧
      (∀ sku : Nat, sku ∉ reqs.map Prod.fst →
        getLevel (st.try_add_products reqs
            AddStrategy.ignoreUpperBoundAllOrNothing).2.product_level sku =
          getLevel st.product_level sku)) := by
  constructor
  · intro hover
    show st.tryAddAllOrNothing reqs = ([], st)
    simp only [StorageUnit.tryAddAllOrNothing, if_pos hover]
  · intro hfit
    have hc : ¬st.remaining_space < totalLevel reqs := by omega
    simp only [StorageUnit.try_add_products, StorageUnit.tryAddAllOrNothing,
      StorageUnit.addFull, addAll, if_neg hc]
    refine ⟨by trivial, ?_, ?_⟩
    · intro p hp
      exact getLevel_foldAdd_mem Prod.snd reqs hnd st.product_level p hp
    · intro sku hsku
      exact getLevel_foldAdd_not_mem Prod.snd sku reqs hsku st.product_level

theorem try_add_all_or_nothing_spec_witness :
    ([(1, 51), (2, 51)].map (Prod.fst (α := Nat) (β := Int))).Nodup ∧
      ((StorageUnit.mk 200 [(1, 50), (2, 50)]).remaining_space <
          totalLevel [(1, 51), (2, 51)] →
        (StorageUnit.mk 200 [(1, 50), (2, 50)]).try_add_products
            [(1, 51), (2, 51)] AddStrategy.ignoreUpperBoundAllOrNothing =
          ([], StorageUnit.mk 200 [(1, 50), (2, 50)])) :=
  ⟨by decide, (try_add_all_or_nothing_spec (StorageUnit.mk 200 [(1, 50), (2, 50)])
      [(1, 51), (2, 51)] (by decide)).1⟩

/-- C6: `try_add_products` with the proportional strategy adds every
request in full when the total requested fits in the remaining space,
and otherwise adds exactly `floor(requested * remaining_space /
total_requested)` units per SKU; in particular, requests `{A: 50, B: 150}`
against remaining space 100 add 25 to A and 75 to B. -/
theorem try_add_proportional_spec (st : StorageUnit) (reqs : Levels)
    (hnd : (reqs.map Prod.fst).Nodup) :
    (totalLevel reqs ≤ st.remaining_space →
      (st.try_add_products reqs AddStrategy.ignoreUpperBoundProportional).1 =
          reqs ∧
      (∀ p ∈ reqs,
        getLevel (st.try_add_products reqs
            AddStrategy.ignoreUpperBoundProportional).2.product_level p.1 =
          getLevel st.product_level p.1 + p.2)) ∧
    (st.remaining_space < totalLevel reqs →
      (st.try_add_products reqs AddStrategy.ignoreUpperBoundProportional).1 =
        reqs.map
          (fun p => (p.1, p.2 * st.remaining_space / totalLevel reqs)) ∧
      (∀ p ∈ reqs,
        getLevel (st.try_add_products reqs
            AddStrategy.ignoreUpperBoundProportional).2.product_level p.1 =
          getLevel st.product_level p.1 +
            p.2 * st.remaining_space / totalLevel reqs)) ∧
    getLevel ((StorageUnit.mk 200 [(1, 50), (2, 50)]).try_add_products
        [(1, 50), (2, 150)]
        AddStrategy.ignoreUpperBoundProportional).2.product_level 1 = 50 + 25 ∧
    getLevel ((StorageUnit.mk 200 [(1, 50), (2, 50)]).try_add_products
        [(1, 50), (2, 150)]
        AddStrategy.ignoreUpperBoundProportional).2.product_level 2 = 50 + 75 := by
  refine ⟨?_, ?_, by decide, by decide⟩
  · intro hfit
    simp only [StorageUnit.try_add_products, StorageUnit.tryAddProportional,
      StorageUnit.addFull, addAll, if_pos hfit]
    refine ⟨by trivial, ?_⟩
    intro p hp
    exact getLevel_foldAdd_mem Prod.snd reqs hnd st.product_level p hp
  · intro hover
    have hc : ¬totalLevel reqs ≤ st.remaining_space := by omega
    simp only [StorageUnit.try_add_products, StorageUnit.tryAddProportional,
      StorageUnit.addFull, addAll, if_neg hc]
    have hnd' : ((reqs.map
        (fun p => (p.1, p.2 * st.remaining_space / totalLevel reqs))).map
          Prod.fst).Nodup := by
      rw [List.map_map]
      exact hnd
    refine ⟨by trivial, ?_⟩
    intro p hp
    have hmem := List.mem_map_of_mem
      (fun q : Nat × Int => (q.1, q.2 * st.remaining_space / totalLevel reqs)) hp
    have h := getLevel_foldAdd_mem Prod.snd _ hnd' st.product_level _ hmem
    simpa using h

theorem try_add_proportional_spec_witness :
    (([((1 : Nat), (50 : Int)), (2, 150)]).map Prod.fst).Nodup ∧
      ((StorageUnit.mk 200 [(1, 50), (2, 50)]).remaining_space <
          totalLevel [((1 : Nat), (50 : Int)), (2, 150)] →
        ((StorageUnit.mk 200 [(1, 50), (2, 50)]).try_add_products
            [(1, 50), (2, 150)] AddStrategy.ignoreUpperBoundProportional).1 =
          ([((1 : Nat), (50 : Int)), (2, 150)]).map
            (fun p => (p.1,
              p.2 * (StorageUnit.mk 200 [(1, 50), (2, 50)]).remaining_space /
                totalLevel [((1 : Nat), (50 : Int)), (2, 150)])) ∧
        (∀ p ∈ [((1 : Nat), (50 : Int)), (2, 150)],
          getLevel ((StorageUnit.mk 200 [(1, 50), (2, 50)]).try_add_products
              [(1, 50), (2, 150)]
              AddStrategy.ignoreUpperBoundProportional).2.product_level p.1 =
            getLevel (StorageUnit.mk 200 [(1, 50), (2, 50)]).product_level p.1 +
              p.2 * (StorageUnit.mk 200 [(1, 50), (2, 50)]).remaining_space /
                totalLevel [((1 : Nat), (50 : Int)), (2, 150)])) :=
  ⟨by decide, (try_add_proportional_spec (StorageUnit.mk 200 [(1, 50), (2, 50)])
      [(1, 50), (2, 150)] (by decide)).2.1⟩

/-- The four states of the vehicle state machine (spec §4.4). -/
inductive VehiclePhase
  | idle
  | loading
  | transit
  | unloading
deriving DecidableEq

/-- Modelled from the spec: the `VehicleUnit` implementation
(`units/vehicle.py`) is absent from the sources; this is the single
transport resource state machine of spec §4.4 / §3 (destination facility
or none, carried SKU, requested quantity, currently loaded payload,
remaining transit steps, remaining patience, with the configured
`max_patient`). -/
structure VehicleUnit where
  phase : VehiclePhase
  destination : Option Nat
  product_id : Nat
  requested_quantity : Int
  payload : Int
  remaining_steps : Nat
  remaining_patient : Nat
  max_patient : Nat
deriving DecidableEq

/-- Reset every per-assignment field to its idle default (spec §4.4:
destination none, product 0, requested quantity 0, payload 0, remaining
steps 0), destroying the schedule. -/
def VehicleUnit.resetToIdle (v : VehicleUnit) : VehicleUnit :=
  { phase := VehiclePhase.idle, destination := none, product_id := 0,
    requested_quantity := 0, payload := 0, remaining_steps := 0,
    remaining_patient := v.max_patient, max_patient := v.max_patient }

/-- Modelled from the spec (§4.4): `schedule` is only valid from Idle
(scheduling a non-idle vehicle is silently ignored, §7b); it sets
destination, product, requested quantity and lead-time steps, restores
full patience, and transitions to Loading. -/
def VehicleUnit.schedule (v : VehicleUnit) (dest : Nat) (sku : Nat)
    (quantity : Int) (lead_time : Nat) : VehicleUnit :=
  if v.phase = VehiclePhase.idle then
    { v with
      phase := VehiclePhase.loading
      destination := some dest
      product_id := sku
      requested_quantity := quantity
      payload := 0
      remaining_steps := lead_time
      remaining_patient := v.max_patient }
  else v

/-- Modelled from the spec (§4.4 Loading tick): attempt
`source_storage.take_available(sku, requested_quantity - payload)` and
add the result to the payload.  If the payload reaches the requested
quantity, transition to Transit.  If the payload stayed at 0, decrement
the remaining patience; when it reaches 0, cancel — reset all fields to
the idle defaults. -/
def VehicleUnit.loadTick (v : VehicleUnit) (src : StorageUnit) :
    VehicleUnit × StorageUnit :=
  let r := src.take_available v.product_id (v.requested_quantity - v.payload)
  let payload' := v.payload + r.1
  if payload' = v.requested_quantity then
    ({ v with payload := payload', phase := VehiclePhase.transit }, r.2)
  else if payload' = 0 then
    if v.remaining_patient - 1 = 0 then (v.resetToIdle, r.2)
    else
      ({ v with
        payload := payload'
        remaining_patient := v.remaining_patient - 1 }, r.2)
  else
    ({ v with payload := payload' }, r.2)

/-- Modelled from the spec (§4.4 Transit tick): decrement the remaining
steps; at 0, transition to Unloading. -/
def VehicleUnit.transitTick (v : VehicleUnit) : VehicleUnit :=
  if v.remaining_steps - 1 = 0 then
    { v with remaining_steps := 0, phase := VehiclePhase.unloading }
  else { v with remaining_steps := v.remaining_steps - 1 }

/-- Modelled from the spec (§4.4 Unloading tick): attempt
`dest_storage.try_add_products({sku: payload}, strategy)` with a partial
(running-space) strategy, reduce the payload by the amount actually
added, and reset to Idle exactly when the payload reaches 0; otherwise
remain in Unloading — no timeout applies. -/
def VehicleUnit.unloadTick (v : VehicleUnit) (dest : StorageUnit) :
    VehicleUnit × StorageUnit :=
  let r := dest.try_add_products [(v.product_id, v.payload)]
    AddStrategy.ignoreUpperBoundAddInOrder
  let payload' := v.payload - getLevel r.1 v.product_id
  if payload' = 0 then (v.resetToIdle, r.2)
  else ({ v with payload := payload' }, r.2)

/-- Modelled from the spec (§4.4): one tick of the vehicle state machine,
dispatching on the current phase (Idle vehicles do nothing). -/
def VehicleUnit.step (v : VehicleUnit) (src dest : StorageUnit) :
    VehicleUnit × StorageUnit × StorageUnit :=
  match v.phase with
  | VehiclePhase.idle => (v, src, dest)
  | VehiclePhase.loading => ((v.loadTick src).1, (v.loadTick src).2, dest)
  | VehiclePhase.transit => (v.transitTick, src, dest)
  | VehiclePhase.unloading => ((v.unloadTick dest).1, src, (v.unloadTick dest).2)

/-- Iterated loading ticks against the (evolving) source storage. -/
def VehicleUnit.loadRun (v : VehicleUnit) (src : StorageUnit) :
    Nat → VehicleUnit × StorageUnit
  | 0 => (v, src)
  | n + 1 => ((v.loadTick src).1).loadRun (v.loadTick src).2 n

/-- Iterated unloading ticks against the (evolving) destination storage. -/
def VehicleUnit.unloadRun (v : VehicleUnit) (dest : StorageUnit) :
    Nat → VehicleUnit × StorageUnit
  | 0 => (v, dest)
  | n + 1 => ((v.unloadTick dest).1).unloadRun (v.unloadTick dest).2 n

theorem loadTick_payload (v : VehicleUnit) (src : StorageUnit) :
    ((v.loadTick src).1).payload =
      v.payload + min (v.requested_quantity - v.payload)
        (getLevel src.product_level v.product_id) := by
  simp only [VehicleUnit.loadTick, StorageUnit.take_available]
  split
  next h => rfl
  next h =>
    split
    next h2 =>
      split
      next h3 => exact h2.symm
      next h3 => rfl
    next h2 => rfl

theorem loadTick_patience_frame (v : VehicleUnit) (src : StorageUnit)
    (h : v.payload + min (v.requested_quantity - v.payload)
        (getLevel src.product_level v.product_id) ≠ 0) :
    ((v.loadTick src).1).remaining_patient = v.remaining_patient := by
  by_cases h1 : v.payload + min (v.requested_quantity - v.payload)
      (getLevel src.product_level v.product_id) = v.requested_quantity
  · simp [VehicleUnit.loadTick, StorageUnit.take_available, if_pos h1]
  · simp [VehicleUnit.loadTick, StorageUnit.take_available, if_neg h1, if_neg h]

theorem loadTick_zero_wait (v : VehicleUnit) (src : StorageUnit)
    (h : v.payload + min (v.requested_quantity - v.payload)
        (getLevel src.product_level v.product_id) = 0)
    (hreq : v.requested_quantity ≠ 0)
    (hpat : v.remaining_patient - 1 ≠ 0) :
    ((v.loadTick src).1).remaining_patient = v.remaining_patient - 1 ∧
      ((v.loadTick src).1).phase = v.phase := by
  have h1 : v.payload + min (v.requested_quantity - v.payload)
      (getLevel src.product_level v.product_id) ≠ v.requested_quantity := by
    intro hc
    rw [h] at hc
    exact hreq hc.symm
  simp only [VehicleUnit.loadTick, StorageUnit.take_available,
    if_neg h1, if_pos h, if_neg hpat]
  exact ⟨by trivial, by trivial⟩

theorem loadTick_cancel (v : VehicleUnit) (src : StorageUnit)
    (h : v.payload + min (v.requested_quantity - v.payload)
        (getLevel src.product_level v.product_id) = 0)
    (hreq : v.requested_quantity ≠ 0)
    (hpat : v.remaining_patient - 1 = 0) :
    (v.loadTick src).1 = v.resetToIdle := by
  have h1 : v.payload + min (v.requested_quantity - v.payload)
      (getLevel src.product_level v.product_id) ≠ v.requested_quantity := by
    intro hc
    rw [h] at hc
    exact hreq hc.symm
  simp only [VehicleUnit.loadTick, StorageUnit.take_available,
    if_neg h1, if_pos h, if_pos hpat]

theorem loadTick_zero_stock (v : VehicleUnit) (src : StorageUnit)
    (hpay : v.payload = 0) (hreq : 0 < v.requested_quantity)
    (hlvl : getLevel src.product_level v.product_id = 0) :
    (v.loadTick src).1 =
      (if v.remaining_patient - 1 = 0 then v.resetToIdle
        else { v with remaining_patient := v.remaining_patient - 1 }) ∧
    getLevel ((v.loadTick src).2).product_level v.product_id = 0 := by
  have hmin : min (v.requested_quantity - v.payload)
      (getLevel src.product_level v.product_id) = 0 := by
    rw [hpay, hlvl]
    omega
  have h0 : v.payload + min (v.requested_quantity - v.payload)
      (getLevel src.product_level v.product_id) = 0 := by omega
  have h1 : v.payload + min (v.requested_quantity - v.payload)
      (getLevel src.product_level v.product_id) ≠ v.requested_quantity := by
    omega
  constructor
  · by_cases hp : v.remaining_patient - 1 = 0
    · rw [if_pos hp]
      exact loadTick_cancel v src h0 (by omega) hp
    · rw [if_neg hp]
      simp only [VehicleUnit.loadTick, StorageUnit.take_available,
        if_neg h1, if_pos h0, if_neg hp]
      obtain ⟨ph, dst, pid, rq, pl, rs, rp, mp⟩ := v
      simp only at hpay hmin ⊢
      subst hpay
      simp
      omega
  · simp only [VehicleUnit.loadTick, StorageUnit.take_available,
      if_neg h1, if_pos h0]
    split <;> (rw [getLevel_addLevel_self, hmin, hlvl]; ring)

theorem loadRun_zero_stock (n : Nat) :
    ∀ (v : VehicleUnit) (src : StorageUnit),
      v.payload = 0 → 0 < v.requested_quantity →
      getLevel src.product_level v.product_id = 0 →
      v.remaining_patient = n → 0 < n →
      (∀ k, k < n →
        ((v.loadRun src k).1).phase = v.phase ∧
        ((v.loadRun src k).1).payload = 0 ∧
        ((v.loadRun src k).1).remaining_patient = n - k) ∧
      (v.loadRun src n).1 = v.resetToIdle := by
  induction n with
  | zero =>
      intro v src _ _ _ _ h0
      exact absurd h0 (by omega)
  | succ m ih =>
      intro v src hpay hreq hlvl hpat _
      obtain ⟨hstep, hlvl2⟩ := loadTick_zero_stock v src hpay hreq hlvl
      by_cases hm : m = 0
      · subst hm
        constructor
        · intro k hk
          have hk0 : k = 0 := by omega
          subst hk0
          refine ⟨rfl, hpay, ?_⟩
          show v.remaining_patient = 0 + 1 - 0
          omega
        · show (v.loadTick src).1 = v.resetToIdle
          rw [hstep, if_pos (by omega)]
      · have hpat1 : v.remaining_patient - 1 ≠ 0 := by omega
        have hstep1 : (v.loadTick src).1 =
            { v with remaining_patient := m } := by
          rw [hstep, if_neg hpat1, hpat]
          simp
        have hv1pay : ((v.loadTick src).1).payload = 0 := by
          rw [hstep1]
          exact hpay
        have hv1req : 0 < ((v.loadTick src).1).requested_quantity := by
          rw [hstep1]
          exact hreq
        have hv1lvl : getLevel ((v.loadTick src).2).product_level
            ((v.loadTick src).1).product_id = 0 := by
          rw [hstep1]
          exact hlvl2
        have hv1pat : ((v.loadTick src).1).remaining_patient = m := by
          rw [hstep1]
        have ihx := ih ((v.loadTick src).1) ((v.loadTick src).2)
          hv1pay hv1req hv1lvl hv1pat (by omega)
        constructor
        · intro k hk
          match k with
          | 0 =>
              refine ⟨rfl, hpay, ?_⟩
              show v.remaining_patient = m + 1 - 0
              omega
          | Nat.succ j =>
              have hj : j < m := by omega
              obtain ⟨hph, hpl, hpt⟩ := ihx.1 j hj
              refine ⟨?_, ?_, ?_⟩
              · show (((v.loadTick src).1).loadRun (v.loadTick src).2 j).1.phase =
                  v.phase
                rw [hph, hstep1]
              · exact hpl
              · show (((v.loadTick src).1).loadRun (v.loadTick src).2 j).1.remaining_patient =
                  m + 1 - (j + 1)
                rw [hpt]
                omega
        · show (((v.loadTick src).1).loadRun (v.loadTick src).2 m).1 =
            v.resetToIdle
          rw [ihx.2, hstep1]
          rfl

/-- C3: for a vehicle in the Loading state, each tick adds
`source_storage.take_available(sku, requested_quantity - payload)` —
that is, `min(requested_quantity - payload, stock)` — to its payload, so
partial stock is loaded partially; the remaining patience is decremented
only on ticks where the payload stayed at 0 (it is unchanged whenever
the tick ends with non-zero payload); and when the remaining patience
reaches 0 the vehicle resets all fields to the idle defaults: with no
stock at all, every tick before the `n`-th leaves the vehicle in Loading
with payload 0 — it never transitions to Transit and hence never
delivers — and the `n`-th tick resets it to idle, destroying the
schedule. -/
theorem vehicle_loading_patience_spec :
    (∀ (v : VehicleUnit) (src : StorageUnit),
      ((v.loadTick src).1).payload =
        v.payload + min (v.requested_quantity - v.payload)
          (getLevel src.product_level v.product_id)) ∧
    (∀ (v : VehicleUnit) (src : StorageUnit),
      v.payload + min (v.requested_quantity - v.payload)
          (getLevel src.product_level v.product_id) ≠ 0 →
      ((v.loadTick src).1).remaining_patient = v.remaining_patient) ∧
    (∀ (v : VehicleUnit) (src : StorageUnit),
      v.payload + min (v.requested_quantity - v.payload)
          (getLevel src.product_level v.product_id) = 0 →
      v.requested_quantity ≠ 0 → v.remaining_patient - 1 ≠ 0 →
      ((v.loadTick src).1).remaining_patient = v.remaining_patient - 1 ∧
        ((v.loadTick src).1).phase = v.phase) ∧
    (∀ (v : VehicleUnit) (src : StorageUnit),
      v.payload + min (v.requested_quantity - v.payload)
          (getLevel src.product_level v.product_id) = 0 →
      v.requested_quantity ≠ 0 → v.remaining_patient - 1 = 0 →
      (v.loadTick src).1 = v.resetToIdle) ∧
    (∀ (v : VehicleUnit) (src : StorageUnit) (n : Nat),
      v.phase = VehiclePhase.loading → v.payload = 0 →
      0 < v.requested_quantity →
      getLevel src.product_level v.product_id = 0 →
      v.remaining_patient = n → 0 < n →
      (∀ k, k < n →
        ((v.loadRun src k).1).phase = VehiclePhase.loading ∧
        ((v.loadRun src k).1).payload = 0 ∧
        ((v.loadRun src k).1).remaining_patient = n - k) ∧
      (v.loadRun src n).1 = v.resetToIdle) := by
  refine ⟨loadTick_payload, loadTick_patience_frame, loadTick_zero_wait,
    loadTick_cancel, ?_⟩
  intro v src n hph hpay hreq hlvl hpat hn
  have h := loadRun_zero_stock n v src hpay hreq hlvl hpat hn
  refine ⟨?_, h.2⟩
  intro k hk
  obtain ⟨h1, h2, h3⟩ := h.1 k hk
  exact ⟨by rw [h1, hph], h2, h3⟩

theorem vehicle_loading_patience_spec_witness :
    (VehicleUnit.mk VehiclePhase.loading (some 2) 3 100 0 3 10 10).phase =
        VehiclePhase.loading ∧
    (0 : Int) < 100 ∧
    getLevel (StorageUnit.mk 100 [(3, 0)]).product_level 3 = 0 ∧
    ((VehicleUnit.mk VehiclePhase.loading (some 2) 3 100 0 3 10 10).loadRun
        (StorageUnit.mk 100 [(3, 0)]) 10).1 =
      (VehicleUnit.mk VehiclePhase.loading (some 2) 3 100 0 3 10 10).resetToIdle :=
  ⟨rfl, by decide, by decide,
    (vehicle_loading_patience_spec.2.2.2.2
      (VehicleUnit.mk VehiclePhase.loading (some 2) 3 100 0 3 10 10)
      (StorageUnit.mk 100 [(3, 0)]) 10 rfl rfl (by decide) (by decide) rfl
      (by decide)).2⟩

theorem unloadTick_eq (v : VehicleUnit) (dest : StorageUnit) :
    v.unloadTick dest =
      (if v.payload - min v.payload dest.remaining_space = 0 then v.resetToIdle
        else { v with payload := v.payload - min v.payload dest.remaining_space },
        { dest with product_level := (addLevel dest.product_level v.product_id
            (min v.payload dest.remaining_space)) }) := by
  by_cases hc : v.payload - min v.payload dest.remaining_space = 0
  · simp [VehicleUnit.unloadTick, StorageUnit.try_add_products,
      StorageUnit.tryAddInOrder, addFold, getLevel, hc]
  · simp [VehicleUnit.unloadTick, StorageUnit.try_add_products,
      StorageUnit.tryAddInOrder, addFold, getLevel, hc]

theorem unloadRun_blocked (v : VehicleUnit) (hpay : 0 < v.payload) :
    ∀ (k : Nat) (dest : StorageUnit), dest.remaining_space = 0 →
      (v.unloadRun dest k).1 = v ∧
        ((v.unloadRun dest k).2).remaining_space = 0 := by
  intro k
  induction k with
  | zero =>
      intro dest h
      exact ⟨rfl, h⟩
  | succ j ih =>
      intro dest h
      have hmin : min v.payload dest.remaining_space = 0 := by
        rw [h]
        omega
      have hv : (v.unloadTick dest).1 = v := by
        rw [unloadTick_eq]
        rw [if_neg (by rw [hmin]; omega)]
        rw [hmin]
        simp
      have hd : ((v.unloadTick dest).2).remaining_space = 0 := by
        rw [unloadTick_eq]
        show ({ dest with product_level := (addLevel dest.product_level
            v.product_id (min v.payload dest.remaining_space)) } :
          StorageUnit).remaining_space = 0
        simp only [StorageUnit.remaining_space, totalLevel_addLevel]
        simp only [StorageUnit.remaining_space] at h
        omega
      show ((v.unloadTick dest).1.unloadRun (v.unloadTick dest).2 j).1 = v ∧
        (((v.unloadTick dest).1.unloadRun (v.unloadTick dest).2 j).2).remaining_space = 0
      rw [hv]
      exact ih (v.unloadTick dest).2 hd

/-- C4: on each unloading tick the vehicle deposits exactly
`min(payload, remaining_space)` at the destination (only the available
space's worth when space is insufficient); with insufficient space it
leaves the vehicle in its current (Unloading) state with only the
payload reduced — no patience or timeout field is ever touched — and it
resets to the idle defaults exactly when the whole remaining payload
(i.e. the carried quantity minus everything unloaded so far) is
deposited; a vehicle with positive payload facing a full destination
stays unchanged, still Unloading, for every number of subsequent
ticks. -/
theorem vehicle_unloading_spec :
    (∀ (v : VehicleUnit) (dest : StorageUnit),
      getLevel ((v.unloadTick dest).2).product_level v.product_id =
        getLevel dest.product_level v.product_id +
          min v.payload dest.remaining_space ∧
      ((v.unloadTick dest).2).remaining_space =
        dest.remaining_space - min v.payload dest.remaining_space) ∧
    (∀ (v : VehicleUnit) (dest : StorageUnit),
      dest.remaining_space < v.payload →
      (v.unloadTick dest).1 =
        { v with payload := v.payload - dest.remaining_space }) ∧
    (∀ (v : VehicleUnit) (dest : StorageUnit),
      (v.unloadTick dest).1 = v.resetToIdle ↔
        min v.payload dest.remaining_space = v.payload) ∧
    (∀ (v : VehicleUnit) (dest : StorageUnit) (k : Nat),
      0 < v.payload → dest.remaining_space = 0 →
      (v.unloadRun dest k).1 = v ∧
        ((v.unloadRun dest k).2).remaining_space = 0) := by
  refine ⟨?_, ?_, ?_, ?_⟩
  · intro v dest
    rw [unloadTick_eq]
    constructor
    · show getLevel (addLevel dest.product_level v.product_id
        (min v.payload dest.remaining_space)) v.product_id = _
      rw [getLevel_addLevel_self]
    · show ({ dest with product_level := (addLevel dest.product_level
          v.product_id (min v.payload dest.remaining_space)) } :
        StorageUnit).remaining_space = _
      simp only [StorageUnit.remaining_space, totalLevel_addLevel]
      ring
  · intro v dest hlt
    rw [unloadTick_eq]
    have hmin : min v.payload dest.remaining_space = dest.remaining_space :=
      min_eq_right (le_of_lt hlt)
    rw [if_neg (by omega), hmin]
  · intro v dest
    constructor
    · intro hres
      rw [unloadTick_eq] at hres
      by_cases hc : v.payload - min v.payload dest.remaining_space = 0
      · omega
      · rw [if_neg hc] at hres
        have := congrArg VehicleUnit.payload hres
        simp only [VehicleUnit.resetToIdle] at this
        omega
    · intro hmin
      rw [unloadTick_eq, if_pos (by omega)]
  · exact fun v dest k hpay h => unloadRun_blocked v hpay k dest h

theorem vehicle_unloading_spec_witness :
    (StorageUnit.mk 100 [(3, 30)]).remaining_space <
        (VehicleUnit.mk VehiclePhase.unloading (some 7) 3 80 80 0 10 10).payload ∧
    ((VehicleUnit.mk VehiclePhase.unloading (some 7) 3 80 80 0 10 10).unloadTick
        (StorageUnit.mk 100 [(3, 30)])).1 =
      { VehicleUnit.mk VehiclePhase.unloading (some 7) 3 80 80 0 10 10 with
        payload := (VehicleUnit.mk VehiclePhase.unloading
            (some 7) 3 80 80 0 10 10).payload -
          (StorageUnit.mk 100 [(3, 30)]).remaining_space } :=
  ⟨by decide, vehicle_unloading_spec.2.1
    (VehicleUnit.mk VehiclePhase.unloading (some 7) 3 80 80 0 10 10)
    (StorageUnit.mk 100 [(3, 30)]) (by decide)⟩

/-- The part of `ConsumerAction` that `ConsumerUnit` state depends on
(`actions.py`): the upstream source facility, the SKU, and the quantity.
The vehicle type and expiration buffer only shape the constructed
`Order` (lead-time lookup), not the consumer's own state. -/
structure ConsumerAction where
  source_id : Nat
  sku_id : Nat
  quantity : Int
deriving DecidableEq

/-- The mutable state of `ConsumerUnit`
(`units/consumer.py`): the unit's SKU, its valid upstream source
facility ids, the open-order `Counter` keyed by source facility id, the
in-transit total, the per-tick received/purchased/cost counters, the
configured unit order cost, and the tick-keyed
`order_quantity_on_the_way` dictionary.  The Python float costs are
modelled as `Int` (they are sums of quantity-times-price products). -/
structure ConsumerUnit where
  sku_id : Nat
  source_facility_id_list : List Nat
  open_orders : Levels
  in_transit_quantity : Int
  received : Int
  purchased : Int
  order_product_cost : Int
  order_base_cost : Int
  unit_order_cost : Int
  order_quantity_on_the_way : Levels
deriving DecidableEq

/-- `ConsumerUnit._update_open_orders`: add `additional_quantity` to the
open-order counter of `source_id` and to the in-transit total (the
`sku_id` argument of the Python method is only asserted equal to the
unit's SKU). -/
def ConsumerUnit.update_open_orders (c : ConsumerUnit) (source_id : Nat)
    (additional_quantity : Int) : ConsumerUnit :=
  { c with
    open_orders := addLevel c.open_orders source_id additional_quantity
    in_transit_quantity := c.in_transit_quantity + additional_quantity }

/-- The validity condition checked (negated) at the top of
`ConsumerUnit._process_action`: the action's source facility is in the
unit's source list, the SKU matches, and the quantity is positive. -/
def ConsumerUnit.actionValid (c : ConsumerUnit) (a : ConsumerAction) : Prop :=
  a.source_id ∈ c.source_facility_id_list ∧ a.sku_id = c.sku_id ∧ 0 < a.quantity

instance (c : ConsumerUnit) (a : ConsumerAction) : Decidable (c.actionValid a) :=
  inferInstanceAs (Decidable (_ ∧ _ ∧ _))

/-- `ConsumerUnit._process_action`: drop the action silently when any
validity condition fails; otherwise update the open orders, accumulate
the order product cost (`place_order` returns
`order.quantity * source_sku_price`, abstracted by `price`), the base
cost (`quantity * unit_order_cost`), and the purchased counter. -/
def ConsumerUnit.process_action (price : Nat → Int) (c : ConsumerUnit)
    (a : ConsumerAction) : ConsumerUnit :=
  if a.source_id ∉ c.source_facility_id_list ∨ a.sku_id ≠ c.sku_id ∨
      a.quantity ≤ 0 then c
  else
    let c1 := c.update_open_orders a.source_id a.quantity
    { c1 with
      order_product_cost := c1.order_product_cost + a.quantity * price a.source_id
      order_base_cost := c1.order_base_cost + a.quantity * c1.unit_order_cost
      purchased := c1.purchased + a.quantity }

/-- `ConsumerUnit.process_actions`: zero the per-tick cost and purchased
counters, then apply each action of the tick in order. -/
def ConsumerUnit.process_actions (price : Nat → Int) (c : ConsumerUnit)
    (actions : List ConsumerAction) : ConsumerUnit :=
  actions.foldl (ConsumerUnit.process_action price)
    { c with
      order_product_cost := 0
      order_base_cost := 0
      purchased := 0 }

/-- `ConsumerUnit.on_order_reception`: accumulate the received counter
and decrement the open orders of the order's source facility by the
received quantity (`order.receive` only mutates the order itself). -/
def ConsumerUnit.on_order_reception (c : ConsumerUnit) (src_id : Nat)
    (received_quantity : Int) : ConsumerUnit :=
  ({ c with received := c.received + received_quantity }).update_open_orders
    src_id (-received_quantity)

/-- `ConsumerUnit.reset`: clear the open orders, the in-transit total,
and the per-tick counters. -/
def ConsumerUnit.reset (c : ConsumerUnit) : ConsumerUnit :=
  { c with
    open_orders := []
    in_transit_quantity := 0
    received := 0
    purchased := 0
    order_product_cost := 0
    order_base_cost := 0 }

/-- Remove the entry for a key from a tick-keyed dictionary
(the embedding of `dict.pop(key)` guarded by a containment check). -/
def removeKey : Levels -> Nat -> Levels
  | [], _ => []
  | (k, v) :: rest, tick =>
      if k = tick then removeKey rest tick else (k, v) :: removeKey rest tick

/-- `ConsumerUnit.get_pending_order_daily`: report the quantities due to
arrive at `tick + i` for `i < pending_order_len` (a `defaultdict` read,
0 for absent ticks), then remove the entry for `tick` to save storage
(the incidental zero-valued keys a `defaultdict` read inserts are
observationally inert and not modelled).  `pending_order_len` comes from
`world.configs.settings`, modelled as a parameter. -/
def ConsumerUnit.get_pending_order_daily (c : ConsumerUnit)
    (pending_order_len : Nat) (tick : Nat) : List Int × ConsumerUnit :=
  ((List.range pending_order_len).map
      (fun i => getLevel c.order_quantity_on_the_way (tick + i)),
    { c with order_quantity_on_the_way :=
        removeKey c.order_quantity_on_the_way tick })

theorem process_action_invalid (price : Nat → Int) (c : ConsumerUnit)
    (a : ConsumerAction) (h : ¬c.actionValid a) :
    c.process_action price a = c := by
  have hc : a.source_id ∉ c.source_facility_id_list ∨ a.sku_id ≠ c.sku_id ∨
      a.quantity ≤ 0 := by
    by_contra hcon
    push_neg at hcon
    exact h ⟨hcon.1, hcon.2.1, by omega⟩
  simp only [ConsumerUnit.process_action, if_pos hc]

theorem process_action_valid (price : Nat → Int) (c : ConsumerUnit)
    (a : ConsumerAction) (h : c.actionValid a) :
    c.process_action price a =
      { c with
        open_orders := addLevel c.open_orders a.source_id a.quantity
        in_transit_quantity := c.in_transit_quantity + a.quantity
        order_product_cost := c.order_product_cost + a.quantity * price a.source_id
        order_base_cost := c.order_base_cost + a.quantity * c.unit_order_cost
        purchased := c.purchased + a.quantity } := by
  obtain ⟨h1, h2, h3⟩ := h
  have hc : ¬(a.source_id ∉ c.source_facility_id_list ∨ a.sku_id ≠ c.sku_id ∨
      a.quantity ≤ 0) := by
    push_neg
    exact ⟨h1, h2, by omega⟩
  simp only [ConsumerUnit.process_action, if_neg hc]
  rfl

theorem foldl_process_action_invalid (price : Nat → Int)
    (actions : List ConsumerAction) :
    ∀ c : ConsumerUnit, (∀ a ∈ actions, ¬c.actionValid a) →
      actions.foldl (ConsumerUnit.process_action price) c = c := by
  induction actions with
  | nil =>
      intro c _
      rfl
  | cons a rest ih =>
      intro c h
      have h1 : c.process_action price a = c :=
        process_action_invalid price c a (h a (by simp))
      simp only [List.foldl_cons, h1]
      exact ih c (fun b hb => h b (List.mem_cons_of_mem _ hb))

/-- C7: `process_actions` applies an action if and only if the action's
source facility id is in the unit's valid source facility list, the
SKU matches the unit's SKU, and the quantity is strictly positive; an
action failing any of these conditions is silently dropped with no state
change, and a tick whose actions are all invalid leaves the purchased
and both cost counters at 0. -/
theorem consumer_process_actions_valid_only :
    (∀ (price : Nat → Int) (c : ConsumerUnit) (a : ConsumerAction),
      ¬c.actionValid a → c.process_action price a = c) ∧
    (∀ (price : Nat → Int) (c : ConsumerUnit) (a : ConsumerAction),
      c.actionValid a →
      c.process_action price a =
        { c with
          open_orders := addLevel c.open_orders a.source_id a.quantity
          in_transit_quantity := c.in_transit_quantity + a.quantity
          order_product_cost := c.order_product_cost + a.quantity * price a.source_id
          order_base_cost := c.order_base_cost + a.quantity * c.unit_order_cost
          purchased := c.purchased + a.quantity }) ∧
    (∀ (price : Nat → Int) (c : ConsumerUnit) (actions : List ConsumerAction),
      (∀ a ∈ actions, ¬c.actionValid a) →
      (c.process_actions price actions).purchased = 0 ∧
      (c.process_actions price actions).order_product_cost = 0 ∧
      (c.process_actions price actions).order_base_cost = 0) := by
  refine ⟨process_action_invalid, process_action_valid, ?_⟩
  intro price c actions h
  have hz : actions.foldl (ConsumerUnit.process_action price)
      { c with
        order_product_cost := 0
        order_base_cost := 0
        purchased := 0 } =
      { c with
        order_product_cost := 0
        order_base_cost := 0
        purchased := 0 } :=
    foldl_process_action_invalid price actions _ (fun a ha => h a ha)
  simp only [ConsumerUnit.process_actions]
  rw [hz]
  exact ⟨rfl, rfl, rfl⟩

theorem consumer_process_actions_valid_only_witness :
    (∀ a ∈ [ConsumerAction.mk 9 3 10, ConsumerAction.mk 2 4 10,
        ConsumerAction.mk 2 3 0],
      ¬(ConsumerUnit.mk 3 [2] [] 0 0 0 0 0 200 []).actionValid a) ∧
    ((ConsumerUnit.mk 3 [2] [] 0 0 0 0 0 200 []).process_actions (fun _ => 100)
        [ConsumerAction.mk 9 3 10, ConsumerAction.mk 2 4 10,
          ConsumerAction.mk 2 3 0]).purchased = 0 ∧
    ((ConsumerUnit.mk 3 [2] [] 0 0 0 0 0 200 []).process_actions (fun _ => 100)
        [ConsumerAction.mk 9 3 10, ConsumerAction.mk 2 4 10,
          ConsumerAction.mk 2 3 0]).order_product_cost = 0 ∧
    ((ConsumerUnit.mk 3 [2] [] 0 0 0 0 0 200 []).process_actions (fun _ => 100)
        [ConsumerAction.mk 9 3 10, ConsumerAction.mk 2 4 10,
          ConsumerAction.mk 2 3 0]).order_base_cost = 0 := by
  refine ⟨by decide, ?_⟩
  have h := consumer_process_actions_valid_only.2.2 (fun _ => 100)
    (ConsumerUnit.mk 3 [2] [] 0 0 0 0 0 200 [])
    [ConsumerAction.mk 9 3 10, ConsumerAction.mk 2 4 10, ConsumerAction.mk 2 3 0]
    (by decide)
  exact h

/-- The open-order bookkeeping invariant: the in-transit total equals
the sum of the per-source open-order quantities. -/
def ConsumerUnit.OpenOrdersInv (c : ConsumerUnit) : Prop :=
  c.in_transit_quantity = totalLevel c.open_orders

instance (c : ConsumerUnit) : Decidable c.OpenOrdersInv :=
  inferInstanceAs (Decidable (_ = _))

/-- The operations of a `ConsumerUnit` that touch the open-order state:
applying a tick's actions, receiving (part of) an order, and reset. -/
inductive ConsumerOp
  | processActions (price : Nat → Int) (actions : List ConsumerAction)
  | orderReception (src_id : Nat) (received_quantity : Int)
  | reset

/-- State reached after one consumer operation. -/
def ConsumerUnit.applyOp (c : ConsumerUnit) : ConsumerOp → ConsumerUnit
  | ConsumerOp.processActions price actions => c.process_actions price actions
  | ConsumerOp.orderReception src q => c.on_order_reception src q
  | ConsumerOp.reset => c.reset

/-- State reached after a sequence of consumer operations. -/
def ConsumerUnit.applyOps (c : ConsumerUnit) (ops : List ConsumerOp) :
    ConsumerUnit :=
  ops.foldl ConsumerUnit.applyOp c

theorem openOrdersInv_update (c : ConsumerUnit) (h : c.OpenOrdersInv)
    (src : Nat) (q : Int) : (c.update_open_orders src q).OpenOrdersInv := by
  show c.in_transit_quantity + q = totalLevel (addLevel c.open_orders src q)
  rw [totalLevel_addLevel, ← h]

theorem openOrdersInv_process_action (price : Nat → Int) (c : ConsumerUnit)
    (h : c.OpenOrdersInv) (a : ConsumerAction) :
    (c.process_action price a).OpenOrdersInv := by
  by_cases hv : c.actionValid a
  · rw [process_action_valid price c a hv]
    show c.in_transit_quantity + a.quantity =
      totalLevel (addLevel c.open_orders a.source_id a.quantity)
    rw [totalLevel_addLevel, ← h]
  · rw [process_action_invalid price c a hv]
    exact h

theorem openOrdersInv_process_actions (price : Nat → Int)
    (actions : List ConsumerAction) :
    ∀ c : ConsumerUnit, c.OpenOrdersInv →
      (c.process_actions price actions).OpenOrdersInv := by
  have hfold : ∀ (acts : List ConsumerAction) (c : ConsumerUnit),
      c.OpenOrdersInv →
      (acts.foldl (ConsumerUnit.process_action price) c).OpenOrdersInv := by
    intro acts
    induction acts with
    | nil => exact fun c h => h
    | cons a rest ih =>
        intro c h
        exact ih _ (openOrdersInv_process_action price c h a)
  intro c h
  exact hfold actions _ h

theorem openOrdersInv_on_order_reception (c : ConsumerUnit)
    (h : c.OpenOrdersInv) (src : Nat) (q : Int) :
    (c.on_order_reception src q).OpenOrdersInv :=
  openOrdersInv_update _ h src (-q)

/-- C9: in every state satisfying the bookkeeping invariant, the
in-transit quantity equals the sum over all source facilities of the
open-order quantities, and every operation that changes either —
applying a tick's actions (valid ones included), receiving an order,
and reset — preserves the equality; hence it holds in every state
reachable by any sequence of these operations. -/
theorem consumer_in_transit_invariant :
    (∀ (c : ConsumerUnit) (price : Nat → Int) (actions : List ConsumerAction),
      c.OpenOrdersInv → (c.process_actions price actions).OpenOrdersInv) ∧
    (∀ (c : ConsumerUnit) (src : Nat) (q : Int),
      c.OpenOrdersInv → (c.on_order_reception src q).OpenOrdersInv) ∧
    (∀ c : ConsumerUnit, (ConsumerUnit.reset c).OpenOrdersInv) ∧
    (∀ (c : ConsumerUnit) (ops : List ConsumerOp),
      c.OpenOrdersInv → (c.applyOps ops).OpenOrdersInv) := by
  refine ⟨?_, ?_, ?_, ?_⟩
  · exact fun c price actions h => openOrdersInv_process_actions price actions c h
  · exact fun c src q h => openOrdersInv_on_order_reception c h src q
  · intro c
    rfl
  · intro c ops
    induction ops generalizing c with
    | nil => exact fun h => h
    | cons op rest ih =>
        intro h
        have h1 : (c.applyOp op).OpenOrdersInv := by
          cases op with
          | processActions price actions =>
              exact openOrdersInv_process_actions price actions c h
          | orderReception src q =>
              exact openOrdersInv_on_order_reception c h src q
          | reset => rfl
        exact ih _ h1

theorem consumer_in_transit_invariant_witness :
    (ConsumerUnit.mk 3 [1, 2] [(1, 5)] 5 0 0 0 0 200 []).OpenOrdersInv ∧
    ((ConsumerUnit.mk 3 [1, 2] [(1, 5)] 5 0 0 0 0 200 []).applyOps
      [ConsumerOp.processActions (fun _ => 10) [ConsumerAction.mk 1 3 7],
        ConsumerOp.orderReception 1 4,
        ConsumerOp.reset,
        ConsumerOp.processActions (fun _ => 10)
          [ConsumerAction.mk 2 3 9]]).OpenOrdersInv :=
  ⟨by decide, consumer_in_transit_invariant.2.2.2
    (ConsumerUnit.mk 3 [1, 2] [(1, 5)] 5 0 0 0 0 200 [])
    [ConsumerOp.processActions (fun _ => 10) [ConsumerAction.mk 1 3 7],
      ConsumerOp.orderReception 1 4,
      ConsumerOp.reset,
      ConsumerOp.processActions (fun _ => 10) [ConsumerAction.mk 2 3 9]]
    (by decide)⟩

theorem getLevel_removeKey_self (tick : Nat) :
    ∀ l : Levels, getLevel (removeKey l tick) tick = 0 := by
  intro l
  induction l with
  | nil => rfl
  | cons p rest ih =>
      obtain ⟨k, v⟩ := p
      by_cases h : k = tick
      · simp [removeKey, h, ih]
      · simp [removeKey, h, getLevel, ih]

theorem getLevel_removeKey_ne (tick k : Nat) (hk : k ≠ tick) :
    ∀ l : Levels, getLevel (removeKey l tick) k = getLevel l k := by
  intro l
  induction l with
  | nil => rfl
  | cons p rest ih =>
      obtain ⟨k0, v⟩ := p
      by_cases h : k0 = tick
      · have hpk : tick ≠ k := by omega
        simp [removeKey, h, getLevel, hpk, ih]
      · simp [removeKey, h, getLevel, ih]

theorem removeKey_idem (tick : Nat) (l : Levels) :
    removeKey (removeKey l tick) tick = removeKey l tick := by
  induction l with
  | nil => rfl
  | cons p rest ih =>
      obtain ⟨k0, v⟩ := p
      by_cases h : k0 = tick
      · simp [removeKey, h, ih]
      · simp [removeKey, h, ih]

/-- C10: `get_pending_order_daily(tick)` returns a list of exactly
`pending_order_len` entries whose `i`-th entry is the quantity scheduled
to arrive at `tick + i`, and as a side effect it deletes the entry for
`tick` from `order_quantity_on_the_way`; a second call with the same
tick therefore reports 0 at position 0 and the same quantities at every
later position, and leaves the state completely unchanged (the repeated
deletion is a no-op). -/
theorem get_pending_order_daily_spec (c : ConsumerUnit)
    (pending_order_len tick : Nat) (hlen : 0 < pending_order_len) :
    ((c.get_pending_order_daily pending_order_len tick).1).length =
        pending_order_len ∧
    (∀ i, i < pending_order_len →
      ((c.get_pending_order_daily pending_order_len tick).1).getD i 0 =
        getLevel c.order_quantity_on_the_way (tick + i)) ∧
    (c.get_pending_order_daily pending_order_len tick).2 =
      { c with order_quantity_on_the_way :=
          removeKey c.order_quantity_on_the_way tick } ∧
    ((((c.get_pending_order_daily pending_order_len tick).2).get_pending_order_daily
        pending_order_len tick).1).getD 0 0 = 0 ∧
    (∀ i, 0 < i → i < pending_order_len →
      ((((c.get_pending_order_daily pending_order_len tick).2).get_pending_order_daily
          pending_order_len tick).1).getD i 0 =
        ((c.get_pending_order_daily pending_order_len tick).1).getD i 0) ∧
    (((c.get_pending_order_daily pending_order_len tick).2).get_pending_order_daily
        pending_order_len tick).2 =
      (c.get_pending_order_daily pending_order_len tick).2 := by
  refine ⟨?_, ?_, rfl, ?_, ?_, ?_⟩
  · simp [ConsumerUnit.get_pending_order_daily]
  · intro i hi
    simp only [ConsumerUnit.get_pending_order_daily]
    rw [List.getD_eq_getElem?_getD, List.getElem?_map, List.getElem?_range hi]
    rfl
  · simp only [ConsumerUnit.get_pending_order_daily]
    rw [List.getD_eq_getElem?_getD, List.getElem?_map, List.getElem?_range hlen]
    show getLevel (removeKey c.order_quantity_on_the_way tick) (tick + 0) = 0
    exact getLevel_removeKey_self tick _
  · intro i hpos hi
    simp only [ConsumerUnit.get_pending_order_daily]
    rw [List.getD_eq_getElem?_getD, List.getElem?_map, List.getElem?_range hi,
      List.getD_eq_getElem?_getD, List.getElem?_map, List.getElem?_range hi]
    show getLevel (removeKey c.order_quantity_on_the_way tick) (tick + i) =
      getLevel c.order_quantity_on_the_way (tick + i)
    exact getLevel_removeKey_ne tick (tick + i) (by omega) _
  · simp only [ConsumerUnit.get_pending_order_daily]
    rw [removeKey_idem]

theorem get_pending_order_daily_spec_witness :
    0 < 2 ∧
    (((ConsumerUnit.mk 3 [2] [] 0 0 0 0 0 200
        [(5, 7), (6, 9)]).get_pending_order_daily 2 5).1).length = 2 ∧
    ((((ConsumerUnit.mk 3 [2] [] 0 0 0 0 0 200
        [(5, 7), (6, 9)]).get_pending_order_daily 2 5).2.get_pending_order_daily
        2 5).1).getD 0 0 = 0 :=
  ⟨by decide,
    (get_pending_order_daily_spec (ConsumerUnit.mk 3 [2] [] 0 0 0 0 0 200
      [(5, 7), (6, 9)]) 2 5 (by decide)).1,
    (get_pending_order_daily_spec (ConsumerUnit.mk 3 [2] [] 0 0 0 0 0 200
      [(5, 7), (6, 9)]) 2 5 (by decide)).2.2.2.1⟩

/-- Modelled from the spec: the `SellerUnit` implementation
(`units/seller.py`) is absent from the sources; spec §4.6: per-tick
demand, per-tick sold quantity, and the cumulative (never reset)
`total_sold` counter for the unit's SKU. -/
structure SellerUnit where
  sku_id : Nat
  demand : Int
  sold : Int
  total_sold : Int
deriving DecidableEq

/-- Modelled from the spec (§4.6): one seller tick — the demand for the
tick is drawn by a pluggable policy (abstracted as the `demand`
argument); `sold = storage.take_available(sku, demand)`; the tick's
demand and sold are recorded and `total_sold` is incremented by the sold
quantity. -/
def SellerUnit.step (s : SellerUnit) (storage : StorageUnit) (demand : Int) :
    SellerUnit × StorageUnit :=
  let r := storage.take_available s.sku_id demand
  ({ s with
    demand := demand
    sold := r.1
    total_sold := s.total_sold + r.1 }, r.2)

/-- A run of seller ticks with the given per-tick demands. -/
def SellerUnit.run (s : SellerUnit) (storage : StorageUnit) :
    List Int → SellerUnit × StorageUnit
  | [] => (s, storage)
  | d :: rest => ((s.step storage d).1).run (s.step storage d).2 rest

theorem seller_run_mono (demands : List Int) :
    ∀ (s : SellerUnit) (st : StorageUnit),
      NonnegLevels st.product_level → (∀ d ∈ demands, 0 ≤ d) →
      s.total_sold ≤ ((s.run st demands).1).total_sold := by
  induction demands with
  | nil =>
      intro s st _ _
      exact le_refl _
  | cons d rest ih =>
      intro s st hst hd
      have hlvl : 0 ≤ getLevel st.product_level s.sku_id :=
        getLevel_nonneg _ hst s.sku_id
      have hd0 : 0 ≤ d := hd d (by simp)
      have hsold : 0 ≤ min d (getLevel st.product_level s.sku_id) := by omega
      have hst' : NonnegLevels ((s.step st d).2).product_level := by
        show NonnegLevels (addLevel st.product_level s.sku_id
          (-(min d (getLevel st.product_level s.sku_id))))
        exact nonnegLevels_addLevel _ _ _ hst (by omega)
      have hs' : ((s.step st d).1).total_sold =
          s.total_sold + min d (getLevel st.product_level s.sku_id) := rfl
      have hrest := ih ((s.step st d).1) ((s.step st d).2) hst'
        (fun x hx => hd x (List.mem_cons_of_mem _ hx))
      show s.total_sold ≤ ((((s.step st d).1).run (s.step st d).2 rest).1).total_sold
      omega

/-- C8: each tick the sold quantity equals
`storage.take_available(sku, demand)`, i.e. `min(demand, on-hand)`, the
recorded demand is the drawn demand, and `total_sold` increases by
exactly the sold quantity; consequently, across the ticks of any run
with non-negative demands over a storage with non-negative levels,
`total_sold` is monotonically non-decreasing — it is never reset per
tick. -/
theorem seller_sold_total_sold_spec :
    (∀ (s : SellerUnit) (st : StorageUnit) (d : Int),
      ((s.step st d).1).sold = (st.take_available s.sku_id d).1 ∧
      ((s.step st d).1).sold = min d (getLevel st.product_level s.sku_id) ∧
      ((s.step st d).1).demand = d ∧
      ((s.step st d).1).total_sold = s.total_sold + ((s.step st d).1).sold) ∧
    (∀ (s : SellerUnit) (st : StorageUnit) (demands : List Int),
      NonnegLevels st.product_level → (∀ d ∈ demands, 0 ≤ d) →
      s.total_sold ≤ ((s.run st demands).1).total_sold) := by
  constructor
  · intro s st d
    exact ⟨rfl, rfl, rfl, rfl⟩
  · intro s st demands hst hd
    exact seller_run_mono demands s st hst hd

theorem seller_sold_total_sold_spec_witness :
    NonnegLevels (StorageUnit.mk 100 [(3, 10)]).product_level ∧
    (∀ d ∈ [(0 : Int), 1, 2, 3, 4, 5, 6], 0 ≤ d) ∧
    (SellerUnit.mk 3 0 0 0).total_sold ≤
      (((SellerUnit.mk 3 0 0 0).run (StorageUnit.mk 100 [(3, 10)])
        [(0 : Int), 1, 2, 3, 4, 5, 6]).1).total_sold :=
  ⟨by decide, by decide,
    seller_sold_total_sold_spec.2 (SellerUnit.mk 3 0 0 0)
      (StorageUnit.mk 100 [(3, 10)]) [(0 : Int), 1, 2, 3, 4, 5, 6]
      (by decide) (by decide)⟩
